import Mathlib

/-!
Verification of the galpy core (planar orbits, Potential contract, SCF
basis-expansion potential) against its natural-language specification.

The Python source is shallowly embedded over `ℚ` (exact arithmetic as an
idealization of the floating-point computations).  External collaborators
that the source delegates to — `scipy.integrate.odeint`,
`scipy.optimize.brentq`, `scipy.special.lpmn`, the planar force evaluators
from `planarPotential.py` — are taken as explicit function parameters, with
their contracts as hypotheses where a claim needs them.
-/

namespace Galpy

/-! ## Planar orbit diagnostics (`planarOrbit.py`, `planarOrbitTop.e/rap/rperi`)

A trajectory (`self.orbit`) is a list of phase-space rows `[R, vR, vT(, phi)]`.
The source computes `self.rs = self.orbit[:,0]**2.` — the SQUARE of the first
column — and then takes `amax`/`amin` of that.  `amax`/`amin` of an empty
trajectory is undefined in numpy; the embedding totalizes it with 0 (the
diagnostics are only reachable after integration, which produces one row per
requested time). -/

/-- First column `orbit[:,0]` of a trajectory. -/
def col0 (orbit : List (List ℚ)) : List ℚ :=
  orbit.map (fun row => row.headI)

/-- `self.rs = self.orbit[:,0]**2.` as computed by `planarOrbitTop`. -/
def orbit_rs (orbit : List (List ℚ)) : List ℚ :=
  orbit.map (fun row => row.headI ^ 2)

/-- `numpy.amax` of a list (0 on the empty list, unreachable after integration). -/
def amax : List ℚ → ℚ
  | [] => 0
  | x :: xs => xs.foldl max x

/-- `numpy.amin` of a list (0 on the empty list, unreachable after integration). -/
def amin : List ℚ → ℚ
  | [] => 0
  | x :: xs => xs.foldl min x

/-- `planarOrbitTop.e`: `(amax(rs) - amin(rs))/(amax(rs) + amin(rs))` with
`rs = orbit[:,0]**2.` (identical formula in `planarOrbit.e`). -/
def orbit_e (orbit : List (List ℚ)) : ℚ :=
  (amax (orbit_rs orbit) - amin (orbit_rs orbit)) /
    (amax (orbit_rs orbit) + amin (orbit_rs orbit))

/-- `planarOrbitTop.rap`: `amax(rs)` with `rs = orbit[:,0]**2.`. -/
def orbit_rap (orbit : List (List ℚ)) : ℚ :=
  amax (orbit_rs orbit)

/-- `planarOrbitTop.rperi`: `amin(rs)` with `rs = orbit[:,0]**2.`. -/
def orbit_rperi (orbit : List (List ℚ)) : ℚ :=
  amin (orbit_rs orbit)

/-- Eccentricity as the spec words it: `(r_max - r_min)/(r_max + r_min)` over
the sampled radii, i.e. over the (unsquared) first trajectory component. -/
def e_claimed (orbit : List (List ℚ)) : ℚ :=
  (amax (col0 orbit) - amin (col0 orbit)) / (amax (col0 orbit) + amin (col0 orbit))

/-- Apocenter as the spec words it: the maximum sampled radius. -/
def rap_claimed (orbit : List (List ℚ)) : ℚ :=
  amax (col0 orbit)

/-- Pericenter as the spec words it: the minimum sampled radius. -/
def rperi_claimed (orbit : List (List ℚ)) : ℚ :=
  amin (col0 orbit)

/-- C1: the claim fails on the code.  On the trajectory with sampled radii 2
and 3 the source diagnostics operate on the squared first column
(`self.rs = self.orbit[:,0]**2.`): `rap()` returns 9 (not the maximum radius
3), `rperi()` returns 4 (not the minimum radius 2) and `e()` returns 5/13
(not `(3-2)/(3+2) = 1/5`), contradicting the claim and the methods own
docstrings (apocenter radius, pericenter radius, eccentricity). -/
theorem C1_diagnostics_use_squared_radius :
    orbit_rap [[3, 0, 0], [2, 0, 0]] = 9 ∧
    rap_claimed [[3, 0, 0], [2, 0, 0]] = 3 ∧
    orbit_rperi [[3, 0, 0], [2, 0, 0]] = 4 ∧
    rperi_claimed [[3, 0, 0], [2, 0, 0]] = 2 ∧
    orbit_e [[3, 0, 0], [2, 0, 0]] = 5 / 13 ∧
    e_claimed [[3, 0, 0], [2, 0, 0]] = 1 / 5 ∧
    orbit_rap [[3, 0, 0], [2, 0, 0]] ≠ rap_claimed [[3, 0, 0], [2, 0, 0]] ∧
    orbit_rperi [[3, 0, 0], [2, 0, 0]] ≠ rperi_claimed [[3, 0, 0], [2, 0, 0]] ∧
    orbit_e [[3, 0, 0], [2, 0, 0]] ≠ e_claimed [[3, 0, 0], [2, 0, 0]] := by
  refine ⟨?_, ?_, ?_, ?_, ?_, ?_, ?_, ?_, ?_⟩ <;>
    norm_num [orbit_e, orbit_rap, orbit_rperi, e_claimed, rap_claimed,
      rperi_claimed, orbit_rs, col0, amax, amin]

/-! ## Radius-only planar integration (`_integrateROrbit` / `_REOM`)

The ODE primitive `scipy.integrate.odeint` is an external collaborator: it is
a parameter `odeint` mapping a right-hand side, an initial state `(R, vR)`
and a time list to a list of states, one per requested time.  The planar
radial force `evaluateplanarRforces(R, pot, t)` is likewise abstracted as a
function `Rf : ℚ → ℚ → ℚ` of `(R, t)`. -/

/-- `_REOM(y, t, pot, l2)`: right-hand side `[y[1], l2/y[0]**3 + Rforce(y[0], t)]`. -/
def REOM (Rf : ℚ → ℚ → ℚ) (l2 : ℚ) (y : ℚ × ℚ) (t : ℚ) : ℚ × ℚ :=
  (y.2, l2 / y.1 ^ 3 + Rf y.1 t)

/-- `_integrateROrbit(vxvv, pot, t)`: computes `l = vxvv[0]*vxvv[2]` once from
the initial state, integrates the 2-state `(R, vR)` system with `_REOM`
(which receives the constant `l**2.`), and reports the tangential velocity
column as `l/out[:,0]`. -/
def integrateROrbit
    (odeint : ((ℚ × ℚ) → ℚ → ℚ × ℚ) → ℚ × ℚ → List ℚ → List (ℚ × ℚ))
    (Rf : ℚ → ℚ → ℚ) (vxvv : ℚ × ℚ × ℚ) (t : List ℚ) : List (ℚ × ℚ × ℚ) :=
  let l := vxvv.1 * vxvv.2.2
  let l2 := l ^ 2
  let intOut := odeint (REOM Rf l2) (vxvv.1, vxvv.2.1) t
  intOut.map (fun row => (row.1, row.2, l / row.1))

/-- C3: in radius-only integration the angular momentum `L = R0*vT0` is
computed once from the initial state (the theorem is quantified over an
arbitrary ODE primitive, so nothing is re-derived from the ODE); the
right-hand side is `dR/dt = vR`, `dvR/dt = L²/R³ + radialForce(R)`; the
reported tangential velocity at every sampled time is `L/R`, hence
`R(t_i)*vT(t_i) = R0*vT0` exactly at every sampled row with `R(t_i) ≠ 0`. -/
theorem C3_radius_only_integration
    (odeint : ((ℚ × ℚ) → ℚ → ℚ × ℚ) → ℚ × ℚ → List ℚ → List (ℚ × ℚ))
    (Rf : ℚ → ℚ → ℚ) (vxvv : ℚ × ℚ × ℚ) (t : List ℚ) :
    (∀ l2 y τ, REOM Rf l2 y τ = (y.2, l2 / y.1 ^ 3 + Rf y.1 τ)) ∧
    integrateROrbit odeint Rf vxvv t =
      (odeint (REOM Rf ((vxvv.1 * vxvv.2.2) ^ 2)) (vxvv.1, vxvv.2.1) t).map
        (fun row => (row.1, row.2, vxvv.1 * vxvv.2.2 / row.1)) ∧
    (∀ row ∈ integrateROrbit odeint Rf vxvv t,
        row.2.2 = vxvv.1 * vxvv.2.2 / row.1 ∧
        (row.1 ≠ 0 → row.1 * row.2.2 = vxvv.1 * vxvv.2.2)) := by
  refine ⟨fun _ _ _ => rfl, rfl, ?_⟩
  intro row hrow
  simp only [integrateROrbit, List.mem_map] at hrow
  obtain ⟨pre, _, hpre⟩ := hrow
  subst hpre
  refine ⟨rfl, fun hR => ?_⟩
  exact mul_div_cancel₀ _ hR

/-- Toy ODE primitive used only to witness C3: reports the initial state at
every requested time. -/
def odeintW : ((ℚ × ℚ) → ℚ → ℚ × ℚ) → ℚ × ℚ → List ℚ → List (ℚ × ℚ) :=
  fun _ init ts => ts.map (fun _ => init)

/-- C3 witness: concrete instantiation with initial state `(2, 0, 3)`; the
sampled row has `R = 2`, `vT = 3`, and `R*vT = 2*3`. -/
theorem C3_radius_only_integration_witness :
    ((2 : ℚ), (0 : ℚ), (3 : ℚ)).1 * ((2 : ℚ), (0 : ℚ), (3 : ℚ)).2.2 =
      (2 : ℚ) * 3 := by
  have h := (C3_radius_only_integration odeintW (fun _ _ => 0) (2, 0, 3) [0]).2.2
      ((2 : ℚ), (0 : ℚ), (3 : ℚ)) (by norm_num [integrateROrbit, odeintW])
  exact h.2 (by norm_num)

/-! ## Full planar integration (`_integrateOrbit` / `_EOM`)

State vector `y = (R, vR, phi, vphi)` with `vphi = vT/R`.  The planar forces
`evaluateplanarRforces(R, pot, phi, t)` and
`evaluateplanarphiforces(R, pot, phi, t)` are abstracted as parameters
`Rf phif : ℚ → ℚ → ℚ → ℚ` of `(R, phi, t)`. -/

/-- `_EOM(y, t, pot)`: computes `l2 = (y[0]**2.*y[3])**2.` each step and
returns `[y[1], l2/y[0]**3 + Rforce, y[3], (phiforce - 2 y0 y1 y3)/y0**2]`. -/
def EOM (Rf phif : ℚ → ℚ → ℚ → ℚ) (y : ℚ × ℚ × ℚ × ℚ) (t : ℚ) : ℚ × ℚ × ℚ × ℚ :=
  let l2 := (y.1 ^ 2 * y.2.2.2) ^ 2
  (y.2.1,
   l2 / y.1 ^ 3 + Rf y.1 y.2.2.1 t,
   y.2.2.2,
   1 / y.1 ^ 2 * (phif y.1 y.2.2.1 t - 2 * y.1 * y.2.1 * y.2.2.2))

/-- `_integrateOrbit(vxvv, pot, t)`: initial state
`[R0, vR0, phi0, vT0/R0]`, integrate with `_EOM`, then report
`out[:,2] = out[:,0]*intOut[:,3]` (tangential velocity `R*vphi`) and
`out[:,3] = intOut[:,2]` (azimuth). -/
def integrateOrbit
    (odeint : ((ℚ × ℚ × ℚ × ℚ) → ℚ → ℚ × ℚ × ℚ × ℚ) →
      ℚ × ℚ × ℚ × ℚ → List ℚ → List (ℚ × ℚ × ℚ × ℚ))
    (Rf phif : ℚ → ℚ → ℚ → ℚ) (vxvv : ℚ × ℚ × ℚ × ℚ) (t : List ℚ) :
    List (ℚ × ℚ × ℚ × ℚ) :=
  let vphi := vxvv.2.2.1 / vxvv.1
  let init := (vxvv.1, vxvv.2.1, vxvv.2.2.2, vphi)
  let intOut := odeint (EOM Rf phif) init t
  intOut.map (fun row => (row.1, row.2.1, row.1 * row.2.2.2, row.2.2.1))

/-- C4: in full planar integration the state vector is `(R, vR, phi, vT/R)`;
with `L(t) = R²·(vT/R)` recomputed each step, the right-hand side is exactly
`dR/dt = vR`, `dvR/dt = L(t)²/R³ + radialForce(R, phi)`, `dphi/dt = vT/R`,
`d(vT/R)/dt = (1/R²)·(azimuthalForce(R, phi) - 2·R·vR·(vT/R))`; and the
tangential velocity at each sampled time is reconstructed as `R·(vT/R)`. -/
theorem C4_full_planar_integration
    (odeint : ((ℚ × ℚ × ℚ × ℚ) → ℚ → ℚ × ℚ × ℚ × ℚ) →
      ℚ × ℚ × ℚ × ℚ → List ℚ → List (ℚ × ℚ × ℚ × ℚ))
    (Rf phif : ℚ → ℚ → ℚ → ℚ) (vxvv : ℚ × ℚ × ℚ × ℚ) (t : List ℚ) :
    (∀ y τ, EOM Rf phif y τ =
      (y.2.1,
       (y.1 ^ 2 * y.2.2.2) ^ 2 / y.1 ^ 3 + Rf y.1 y.2.2.1 τ,
       y.2.2.2,
       1 / y.1 ^ 2 * (phif y.1 y.2.2.1 τ - 2 * y.1 * y.2.1 * y.2.2.2))) ∧
    integrateOrbit odeint Rf phif vxvv t =
      (odeint (EOM Rf phif)
          (vxvv.1, vxvv.2.1, vxvv.2.2.2, vxvv.2.2.1 / vxvv.1) t).map
        (fun row => (row.1, row.2.1, row.1 * row.2.2.2, row.2.2.1)) := by
  exact ⟨fun _ _ => rfl, rfl⟩

/-! ## The `Potential` contract (`Potential.py`)

The state of a `Potential` instance that the claims touch: the amplitude
`_amp`, the axisymmetry flag `isNonAxi`, the unit scales `_ro`/`_vo` with
their unit-output flags `_roSet`/`_voSet`, and the raw implementations.
`_evaluate` and `_Rforce` are required by the API (their missing-method
branches are marked unreachable in the source), so they are total here;
`_phiforce`, `_phi2deriv` and `_Rphideriv` may be absent (`Option`), which
models the `AttributeError` branch of the corresponding accessors.  Raw
implementations take `(R, z, phi, t)`; `phi` is an `Option` because the
composite evaluators pass `phi=None` through unchanged. -/

structure Pot where
  amp : ℚ
  isNonAxi : Bool
  ro : ℚ
  vo : ℚ
  roSet : Bool
  voSet : Bool
  evaluateRaw : ℚ → ℚ → Option ℚ → ℚ → ℚ
  RforceRaw : ℚ → ℚ → Option ℚ → ℚ → ℚ
  phiforceRaw : Option (ℚ → ℚ → Option ℚ → ℚ → ℚ)
  phi2derivRaw : Option (ℚ → ℚ → Option ℚ → ℚ → ℚ)
  RphiderivRaw : Option (ℚ → ℚ → Option ℚ → ℚ → ℚ)

/-- `Potential._call_nodecorator` in its `dR == 0 and dphi == 0` branch (the
only branch the composite evaluation claims exercise):
`self._amp*self._evaluate(R, z, phi, t)`. -/
def call_nodecorator (p : Pot) (R z : ℚ) (phi : Option ℚ) (t : ℚ) : ℚ :=
  p.amp * p.evaluateRaw R z phi t

/-- `Potential._Rforce_nodecorator`: `self._amp*self._Rforce(R, z, phi, t)`. -/
def Rforce_nodecorator (p : Pot) (R z : ℚ) (phi : Option ℚ) (t : ℚ) : ℚ :=
  p.amp * p.RforceRaw R z phi t

/-- `Potential._phiforce_nodecorator`: forwards to `_amp*self._phiforce` when
implemented; on the `AttributeError` branch it raises a `PotentialError` for
a non-axisymmetric potential and returns `0.` otherwise. -/
def phiforce_nodecorator (p : Pot) (R z : ℚ) (phi : Option ℚ) (t : ℚ) :
    Except String ℚ :=
  match p.phiforceRaw with
  | some f => Except.ok (p.amp * f R z phi t)
  | none =>
    if p.isNonAxi then
      Except.error "PotentialError: _phiforce function not implemented for this non-axisymmetric potential"
    else Except.ok 0

/-- `Potential.phi2deriv` (body under the unit decorators): same
missing-raw-implementation policy as `_phiforce_nodecorator`. -/
def phi2deriv (p : Pot) (R z : ℚ) (phi : Option ℚ) (t : ℚ) : Except String ℚ :=
  match p.phi2derivRaw with
  | some f => Except.ok (p.amp * f R z phi t)
  | none =>
    if p.isNonAxi then
      Except.error "PotentialError: _phiforce function not implemented for this non-axisymmetric potential"
    else Except.ok 0

/-- `Potential.Rphideriv` (body under the unit decorators): same
missing-raw-implementation policy as `_phiforce_nodecorator`. -/
def Rphideriv (p : Pot) (R z : ℚ) (phi : Option ℚ) (t : ℚ) : Except String ℚ :=
  match p.RphiderivRaw with
  | some f => Except.ok (p.amp * f R z phi t)
  | none =>
    if p.isNonAxi then
      Except.error "PotentialError: _phiforce function not implemented for this non-axisymmetric potential"
    else Except.ok 0

/-- `Potential.normalize(norm, t)`:
`self._amp *= norm/numpy.fabs(self.Rforce(1., 0., t=t, use_physical=False))`;
the `Rforce` call is evaluated with the pre-assignment amplitude and `phi`
takes its default `0.`. -/
def normalize (p : Pot) (norm t : ℚ) : Pot :=
  { p with amp := p.amp * (norm / |Rforce_nodecorator p 1 0 (some 0) t|) }

/-- C10: `normalize(norm)` multiplies the stored amplitude by
`norm/|radialForce(R=1, z=0)|` — the radial force evaluated with the
pre-rescale amplitude — and leaves every other piece of field state
(`_ro`, `_vo`, the unit-output flags, the axisymmetry flag, and all raw
implementations) unchanged. -/
theorem C10_normalize_amp_only (p : Pot) (norm t : ℚ) :
    (normalize p norm t).amp =
      p.amp * (norm / |Rforce_nodecorator p 1 0 (some 0) t|) ∧
    (normalize p norm t).ro = p.ro ∧
    (normalize p norm t).vo = p.vo ∧
    (normalize p norm t).roSet = p.roSet ∧
    (normalize p norm t).voSet = p.voSet ∧
    (normalize p norm t).isNonAxi = p.isNonAxi ∧
    (normalize p norm t).evaluateRaw = p.evaluateRaw ∧
    (normalize p norm t).RforceRaw = p.RforceRaw ∧
    (normalize p norm t).phiforceRaw = p.phiforceRaw ∧
    (normalize p norm t).phi2derivRaw = p.phi2derivRaw ∧
    (normalize p norm t).RphiderivRaw = p.RphiderivRaw := by
  exact ⟨rfl, rfl, rfl, rfl, rfl, rfl, rfl, rfl, rfl, rfl, rfl⟩

/-- C7: for a field whose raw azimuthal implementations are all absent,
`phiforce`, `phi2deriv` and `Rphideriv` return exactly 0 when the field is
axisymmetric, and all three signal the capability failure (a
`PotentialError`) when the field is non-axisymmetric. -/
theorem C7_azimuthal_defaults (p : Pot) (R z t : ℚ) (phi : Option ℚ)
    (h1 : p.phiforceRaw = none) (h2 : p.phi2derivRaw = none)
    (h3 : p.RphiderivRaw = none) :
    (p.isNonAxi = false →
      phiforce_nodecorator p R z phi t = Except.ok 0 ∧
      phi2deriv p R z phi t = Except.ok 0 ∧
      Rphideriv p R z phi t = Except.ok 0) ∧
    (p.isNonAxi = true →
      (∃ e1, phiforce_nodecorator p R z phi t = Except.error e1) ∧
      (∃ e2, phi2deriv p R z phi t = Except.error e2) ∧
      (∃ e3, Rphideriv p R z phi t = Except.error e3)) := by
  constructor
  · intro haxi
    refine ⟨?_, ?_, ?_⟩ <;>
      simp [phiforce_nodecorator, phi2deriv, Rphideriv, h1, h2, h3, haxi]
  · intro hnon
    refine ⟨?_, ?_, ?_⟩ <;>
      simp [phiforce_nodecorator, phi2deriv, Rphideriv, h1, h2, h3, hnon]

/-- Axisymmetric field with no raw azimuthal implementations, for witnesses. -/
def potAxi : Pot where
  amp := 2
  isNonAxi := false
  ro := 8
  vo := 220
  roSet := false
  voSet := false
  evaluateRaw := fun R z _ _ => R + z
  RforceRaw := fun R _ _ _ => -R
  phiforceRaw := none
  phi2derivRaw := none
  RphiderivRaw := none

/-- Non-axisymmetric field with no raw azimuthal implementations, for witnesses. -/
def potNonAxi : Pot where
  amp := 3
  isNonAxi := true
  ro := 8
  vo := 220
  roSet := false
  voSet := false
  evaluateRaw := fun R z _ _ => R * z
  RforceRaw := fun R _ _ _ => -R
  phiforceRaw := none
  phi2derivRaw := none
  RphiderivRaw := none

/-- C7 witness: the axisymmetric field `potAxi` gets the zero defaults and
the non-axisymmetric field `potNonAxi` gets the capability failure. -/
theorem C7_azimuthal_defaults_witness :
    (phiforce_nodecorator potAxi 1 0 none 0 = Except.ok 0 ∧
      phi2deriv potAxi 1 0 none 0 = Except.ok 0 ∧
      Rphideriv potAxi 1 0 none 0 = Except.ok 0) ∧
    ((∃ e1, phiforce_nodecorator potNonAxi 1 0 none 0 = Except.error e1) ∧
      (∃ e2, phi2deriv potNonAxi 1 0 none 0 = Except.error e2) ∧
      (∃ e3, Rphideriv potNonAxi 1 0 none 0 = Except.error e3)) := by
  constructor
  · exact (C7_azimuthal_defaults potAxi 1 0 0 none rfl rfl rfl).1 rfl
  · exact (C7_azimuthal_defaults potNonAxi 1 0 0 none rfl rfl rfl).2 rfl

/-! ## Composite evaluation (`_evaluatePotentials`, `_isNonAxi`)

`evaluatePotentials` accepts a single `Potential` instance or a list of
them; the duck typing is modelled by the sum type `PotArg`. -/

inductive PotArg where
  | one : Pot → PotArg
  | lst : List Pot → PotArg

/-- `_isNonAxi(Pot)`: for a list, `not numpy.prod([not p.isNonAxi ...])`
(true iff some member is non-axisymmetric); otherwise `Pot.isNonAxi`. -/
def isNonAxiArg : PotArg → Bool
  | PotArg.one p => p.isNonAxi
  | PotArg.lst ps => !(ps.all (fun p => !p.isNonAxi))

/-- The members of a single-or-list argument. -/
def members : PotArg → List Pot
  | PotArg.one p => [p]
  | PotArg.lst ps => ps

/-- `_evaluatePotentials(Pot, R, z, phi, t)` (with `dR = dphi = 0`): raises
a `PotentialError` when `_isNonAxi(Pot)` and `phi is None`; otherwise sums
`_call_nodecorator` over the list (or forwards to the single instance). -/
def evaluatePotentials (arg : PotArg) (R z : ℚ) (phi : Option ℚ) (t : ℚ) :
    Except String ℚ :=
  if isNonAxiArg arg = true ∧ phi = none then
    Except.error "PotentialError: The (list of) Potential instances is non-axisymmetric, but you did not provide phi"
  else
    match arg with
    | PotArg.one p => Except.ok (call_nodecorator p R z phi t)
    | PotArg.lst ps =>
      Except.ok (ps.foldl (fun s p => s + call_nodecorator p R z phi t) 0)

theorem foldl_add_eq (f : Pot → ℚ) :
    ∀ (ps : List Pot) (init : ℚ),
      ps.foldl (fun s p => s + f p) init = init + (ps.map f).sum
  | [], init => by simp
  | p :: ps, init => by
    simp only [List.foldl_cons, List.map_cons, List.sum_cons]
    rw [foldl_add_eq f ps (init + f p)]
    ring

theorem isNonAxiArg_lst :
    ∀ ps : List Pot,
      isNonAxiArg (PotArg.lst ps) = ps.any (fun p => p.isNonAxi)
  | [] => rfl
  | p :: ps => by
    have ih := isNonAxiArg_lst ps
    simp only [isNonAxiArg, List.all_cons, List.any_cons, Bool.not_and,
      Bool.not_not] at ih ⊢
    rw [ih]

theorem isNonAxiArg_lst_iff (ps : List Pot) :
    isNonAxiArg (PotArg.lst ps) = true ↔ ∃ p ∈ ps, p.isNonAxi = true := by
  rw [isNonAxiArg_lst]
  exact List.any_eq_true

/-- C5: evaluating a list of potentials is invariant under reordering
(stated for arbitrary permutations, which covers `[A,B]` versus `[B,A]`),
and whenever every member is individually evaluable with identical
arguments, the list evaluation succeeds with the sum of the member
evaluations. -/
theorem C5_composite_evaluation (ps qs : List Pot) (R z t : ℚ)
    (phi : Option ℚ) :
    (ps.Perm qs →
      evaluatePotentials (PotArg.lst ps) R z phi t =
        evaluatePotentials (PotArg.lst qs) R z phi t) ∧
    ((∀ p ∈ ps, ∃ v, evaluatePotentials (PotArg.one p) R z phi t = Except.ok v) →
      evaluatePotentials (PotArg.lst ps) R z phi t =
        Except.ok ((ps.map (fun p => call_nodecorator p R z phi t)).sum) ∧
      ∀ p ∈ ps, evaluatePotentials (PotArg.one p) R z phi t =
        Except.ok (call_nodecorator p R z phi t)) := by
  constructor
  · intro hperm
    have hax : isNonAxiArg (PotArg.lst ps) = isNonAxiArg (PotArg.lst qs) := by
      rw [isNonAxiArg_lst, isNonAxiArg_lst]
      cases hall : qs.any fun p => p.isNonAxi with
      | false =>
        rw [Bool.eq_false_iff]
        intro hps
        obtain ⟨x, hx, hxax⟩ := List.any_eq_true.1 hps
        have : qs.any (fun p => p.isNonAxi) = true :=
          List.any_eq_true.2 ⟨x, hperm.mem_iff.1 hx, hxax⟩
        rw [hall] at this
        exact Bool.false_ne_true this
      | true =>
        obtain ⟨x, hx, hxax⟩ := List.any_eq_true.1 hall
        exact List.any_eq_true.2 ⟨x, hperm.mem_iff.2 hx, hxax⟩
    unfold evaluatePotentials
    rw [hax]
    by_cases hc : isNonAxiArg (PotArg.lst qs) = true ∧ phi = none
    · rw [if_pos hc, if_pos hc]
    · rw [if_neg hc, if_neg hc]
      have hsum : (ps.map fun p => call_nodecorator p R z phi t).sum =
          (qs.map fun p => call_nodecorator p R z phi t).sum :=
        (hperm.map _).sum_eq
      simp only [foldl_add_eq, zero_add, hsum]
  · intro hev
    have hnot : ¬(isNonAxiArg (PotArg.lst ps) = true ∧ phi = none) := by
      rintro ⟨hax, hphi⟩
      obtain ⟨p, hp, hpax⟩ := (isNonAxiArg_lst_iff ps).1 hax
      obtain ⟨v, hv⟩ := hev p hp
      rw [evaluatePotentials, if_pos ?_] at hv
      · exact Except.noConfusion hv
      · exact ⟨by simpa [isNonAxiArg] using hpax, hphi⟩
    constructor
    · unfold evaluatePotentials
      rw [if_neg hnot]
      simp only [foldl_add_eq, zero_add]
    · intro p hp
      unfold evaluatePotentials
      rw [if_neg ?_]
      rintro ⟨hax, hphi⟩
      exact hnot ⟨(isNonAxiArg_lst_iff ps).2
        ⟨p, hp, by simpa [isNonAxiArg] using hax⟩, hphi⟩

/-- C5 witness: with the concrete fields `potAxi` and `potNonAxi` and
`phi = some 1`, swapping the two members leaves the composite value, and the
composite equals the sum of the member evaluations. -/
theorem C5_composite_evaluation_witness :
    evaluatePotentials (PotArg.lst [potAxi, potNonAxi]) 1 2 (some 1) 0 =
      evaluatePotentials (PotArg.lst [potNonAxi, potAxi]) 1 2 (some 1) 0 ∧
    evaluatePotentials (PotArg.lst [potAxi, potNonAxi]) 1 2 (some 1) 0 =
      Except.ok (call_nodecorator potAxi 1 2 (some 1) 0 +
        call_nodecorator potNonAxi 1 2 (some 1) 0) := by
  have h := C5_composite_evaluation [potAxi, potNonAxi] [potNonAxi, potAxi]
    1 2 0 (some 1)
  refine ⟨h.1 (List.Perm.swap _ _ _), ?_⟩
  have h2 := (h.2 ?_).1
  · simpa using h2
  · intro p hp
    exact ⟨call_nodecorator p 1 2 (some 1) 0, by
      simp [evaluatePotentials, isNonAxiArg]⟩

/-- C6: a call to the composite evaluator fails with the azimuth-required
`PotentialError` exactly when some member is non-axisymmetric and no azimuth
argument is supplied; and when every member is axisymmetric, evaluation
without an azimuth succeeds and sums the member contributions. -/
theorem C6_azimuth_required (arg : PotArg) (R z t : ℚ) (phi : Option ℚ) :
    (evaluatePotentials arg R z phi t =
        Except.error "PotentialError: The (list of) Potential instances is non-axisymmetric, but you did not provide phi" ↔
      ((∃ p ∈ members arg, p.isNonAxi = true) ∧ phi = none)) ∧
    ((∀ p ∈ members arg, p.isNonAxi = false) →
      evaluatePotentials arg R z none t =
        Except.ok ((members arg).map
          (fun p => call_nodecorator p R z none t)).sum) := by
  have hax : isNonAxiArg arg = true ↔ ∃ p ∈ members arg, p.isNonAxi = true := by
    cases arg with
    | one p => simp [isNonAxiArg, members]
    | lst ps => exact isNonAxiArg_lst_iff ps
  constructor
  · constructor
    · intro herr
      unfold evaluatePotentials at herr
      by_cases hc : isNonAxiArg arg = true ∧ phi = none
      · exact ⟨hax.1 hc.1, hc.2⟩
      · rw [if_neg hc] at herr
        cases arg with
        | one p => exact absurd herr (by simp)
        | lst ps => exact absurd herr (by simp)
    · rintro ⟨hsome, hphi⟩
      unfold evaluatePotentials
      rw [if_pos ⟨hax.2 hsome, hphi⟩]
  · intro hall
    have hnot : ¬(isNonAxiArg arg = true ∧ (none : Option ℚ) = none) := by
      rintro ⟨h1, _⟩
      obtain ⟨p, hp, hpax⟩ := hax.1 h1
      rw [hall p hp] at hpax
      exact Bool.false_ne_true hpax
    unfold evaluatePotentials
    rw [if_neg hnot]
    cases arg with
    | one p => simp [members]
    | lst ps => simp [members, foldl_add_eq]

/-- C6 witness: the all-axisymmetric pair `[potAxi, potAxi]` evaluates
without an azimuth to the sum of the member contributions, while the
theorem applied to `[potAxi, potNonAxi]` with `phi = none` certifies the
azimuth-required failure. -/
theorem C6_azimuth_required_witness :
    evaluatePotentials (PotArg.lst [potAxi, potAxi]) 1 2 none 0 =
      Except.ok (call_nodecorator potAxi 1 2 none 0 +
        call_nodecorator potAxi 1 2 none 0) ∧
    evaluatePotentials (PotArg.lst [potAxi, potNonAxi]) 1 2 none 0 =
      Except.error "PotentialError: The (list of) Potential instances is non-axisymmetric, but you did not provide phi" := by
  constructor
  · have h := (C6_azimuth_required (PotArg.lst [potAxi, potAxi]) 1 2 0 none).2 ?_
    · have h2 : ((members (PotArg.lst [potAxi, potAxi])).map
          (fun p => call_nodecorator p 1 2 none 0)).sum =
          call_nodecorator potAxi 1 2 none 0 +
            call_nodecorator potAxi 1 2 none 0 := by
        simp [members]
      rw [← h2]
      exact h
    · intro p hp
      simp only [members, List.mem_cons, List.not_mem_nil, or_false] at hp
      rcases hp with h | h <;> (subst h; rfl)
  · exact (C6_azimuth_required (PotArg.lst [potAxi, potNonAxi]) 1 2 0 none).1.2
      ⟨⟨potNonAxi, by simp [members], rfl⟩, rfl⟩

/-! ## SCF basis-expansion evaluation (`SCFPotential._compute`)

`_compute(funcTilde, R, z, phi)` combines

  * `func_tilde = funcTilde(r, CC, N, L)`  (the radial-profile table,
    `_rhoTilde` or `_phiTilde`),
  * `PP = lpmn(L, L, cos theta)[0]`        (`scipy.special`, external),
  * `NN = self._NN`                        (the normalization table),
  * `mcos = cos(m*phi)`, `msin = sin(m*phi)` for `m = arange(0, L)`,

in the loop

    m = numpy.arange(0, L)
    for l in range(L):
        for m in range(m + 1):
            func[:,l,m] = (func_tilde[:,l]*(Acos[:,l,m]*mcos
                            + Asin[:,l,m]*msin))*PP[l,m]*NN[l,m]

and returns `numpy.sum(func)` (via `_evaluate`/`_dens`).  The embedding
takes the tables as function parameters (they are irrational-valued, and
the claim is about the index coverage of the summation) and models the
Python semantics of the loop exactly: the loop variable `m` initially holds
the numpy ARRAY `arange(0, L)` and `range(m + 1)` converts it to an `int`,
which succeeds only when the array has exactly one element — otherwise the
call raises `TypeError` (modelled as `none`). -/

/-- The value the Python loop variable `m` holds: `arange(0, L)` before the
first inner loop, an `int` afterwards. -/
inductive PyM where
  | arr : List ℕ → PyM
  | int : ℕ → PyM

/-- `range(m + 1)` for a loop variable `m` that may hold a numpy array:
a length-one array converts to its single element, any other length raises
`TypeError` (only length-1 arrays can be converted to Python scalars). -/
def pyRangeSucc : PyM → Option (List ℕ)
  | PyM.arr a =>
    match a with
    | [k] => some (List.range (k + 1))
    | _ => none
  | PyM.int k => some (List.range (k + 1))

/-- The assignment `func[:,l,m] = v` on the `N x L x L` working array. -/
def setSlice (f : ℕ → ℕ → ℕ → ℚ) (l mm : ℕ) (v : ℕ → ℚ) : ℕ → ℕ → ℕ → ℚ :=
  fun n li mi => if li = l ∧ mi = mm then v n else f n li mi

/-- The inner `for m in ...` loop filling the slices of row `l`. -/
def innerLoop (entry : ℕ → ℕ → ℕ → ℚ) (l : ℕ) :
    List ℕ → (ℕ → ℕ → ℕ → ℚ) → ℕ → ℕ → ℕ → ℚ
  | [], f => f
  | mm :: rest, f => innerLoop entry l rest (setSlice f l mm (fun n => entry n l mm))

/-- The outer `for l in range(L)` loop.  Each iteration evaluates
`range(m + 1)` on the current value of `m` (failing like Python does when
`m` is a multi-element array), runs the inner loop, and leaves `m` bound to
the last element of the iterated range. -/
def outerLoop (entry : ℕ → ℕ → ℕ → ℚ) :
    List ℕ → PyM → (ℕ → ℕ → ℕ → ℚ) → Option (ℕ → ℕ → ℕ → ℚ)
  | [], _, f => some f
  | l :: ls, mv, f =>
    match pyRangeSucc mv with
    | none => none
    | some ms =>
      outerLoop entry ls
        (match ms.getLast? with
          | some k => PyM.int k
          | none => mv)
        (innerLoop entry l ms f)

/-- `numpy.sum` of the `N x L x L` working array. -/
def sumTable (N L : ℕ) (f : ℕ → ℕ → ℕ → ℚ) : ℚ :=
  ((List.range N).map (fun n =>
    ((List.range L).map (fun l =>
      ((List.range L).map (fun mm => f n l mm)).sum)).sum)).sum

/-- `SCFPotential._compute` followed by `numpy.sum` (the scalar returned by
`_evaluate` and `_dens`), with the radial table `funcTilde`, the Legendre
table `PP`, the normalization table `NN`, the coefficient arrays
`Acos`/`Asin` and the azimuthal factors `c m = cos(m*phi)`,
`s m = sin(m*phi)` supplied as tables.  `none` models the `TypeError`
raised by `range(m + 1)` when `m` is a multi-element array.  (Inside the
reachable iterations — which all have `L = 1`, `l = m = 0` — the numpy
broadcast `Acos[:,l,m]*mcos` equals the scalar product with `c m`, which is
how the entry is written here.) -/
def SCF_compute_sum (N L : ℕ) (funcTilde PP NN : ℕ → ℕ → ℚ)
    (Acos Asin : ℕ → ℕ → ℕ → ℚ) (c s : ℕ → ℚ) : Option ℚ :=
  (outerLoop
      (fun n l mm =>
        funcTilde n l * (Acos n l mm * c mm + Asin n l mm * s mm) * PP l mm * NN l mm)
      (List.range L) (PyM.arr (List.range L)) (fun _ _ _ => 0)).map
    (sumTable N L)

/-- The scalar the claim (and the spec) describe: the sum over all valid
index triples `(n, l, m)` with `n < N`, `l < L`, `m ≤ l` of
radial-profile x angular factor x normalization x
`(Acos*cos(m*phi) + Asin*sin(m*phi))`. -/
def SCF_compute_claimed (N L : ℕ) (funcTilde PP NN : ℕ → ℕ → ℚ)
    (Acos Asin : ℕ → ℕ → ℕ → ℚ) (c s : ℕ → ℚ) : ℚ :=
  ((List.range N).map (fun n =>
    ((List.range L).map (fun l =>
      ((List.range (l + 1)).map (fun mm =>
        funcTilde n l * (Acos n l mm * c mm + Asin n l mm * s mm) *
          PP l mm * NN l mm)).sum)).sum)).sum

/-- All-ones table of one index, a concrete input for the C2 evaluation. -/
def onesT1 : ℕ → ℚ := fun _ => 1

/-- All-ones table of two indices, a concrete input for the C2 evaluation. -/
def onesT2 : ℕ → ℕ → ℚ := fun _ _ => 1

/-- All-ones coefficient array, a concrete input for the C2 evaluation. -/
def onesT3 : ℕ → ℕ → ℕ → ℚ := fun _ _ _ => 1

/-- C2: the claim fails on the code for every `L ≥ 2`.  With `N = 1`,
`L = 2` and all tables and coefficients equal to 1 the claimed sum is 6,
but the code raises `TypeError` in `for m in range(m + 1)` (the loop
variable `m` still holds the two-element array `arange(0, 2)`, which
cannot be converted to a Python scalar), so no value is returned at all —
in particular the inner summation never reaches any `m` for `L ≥ 2`.  For
`L = 1` (the only shape that evaluates) the code does return exactly the
claimed sum, for every `N` and every choice of tables. -/
theorem C2_scf_sum_crashes_for_L_ge_2 :
    SCF_compute_sum 1 2 onesT2 onesT2 onesT2 onesT3 onesT3 onesT1 onesT1 =
      none ∧
    SCF_compute_claimed 1 2 onesT2 onesT2 onesT2 onesT3 onesT3 onesT1 onesT1 =
      6 ∧
    (∀ N funcTilde PP NN Acos Asin c s,
      SCF_compute_sum N 1 funcTilde PP NN Acos Asin c s =
        some (SCF_compute_claimed N 1 funcTilde PP NN Acos Asin c s)) := by
  refine ⟨rfl,
    by norm_num [SCF_compute_claimed, List.range_succ, onesT1, onesT2, onesT3],
    ?_⟩
  intro N funcTilde PP NN Acos Asin c s
  have houter : outerLoop
      (fun n l mm =>
        funcTilde n l * (Acos n l mm * c mm + Asin n l mm * s mm) *
          PP l mm * NN l mm)
      (List.range 1) (PyM.arr (List.range 1)) (fun _ _ _ => 0) =
      some (setSlice (fun _ _ _ => 0) 0 0
        (fun n => funcTilde n 0 * (Acos n 0 0 * c 0 + Asin n 0 0 * s 0) *
          PP 0 0 * NN 0 0)) := rfl
  rw [SCF_compute_sum, houter, Option.map_some']
  rw [SCF_compute_claimed, sumTable]
  simp [setSlice, List.range_succ]

/-! ## Circular-orbit radius `rl` (`Potential.py`, `rl` / `_rlfunc` / `_rlFindStart`)

`scipy.optimize.brentq` is an external primitive: a parameter that takes a
function and the two bracket ends, and either returns a root (`ok`) or
raises (`error`, e.g. the `ValueError` for a bracket without a sign
change).  `vcirc` lives in `plotRotcurve.py` (not part of this source
tree); the claim is stated directly in terms of the circular-velocity
function, so `vc` is a parameter as well.  The unbounded Python `while`
loop of `_rlFindStart` is given an explicit fuel; exhausting the fuel
(i.e. a non-terminating search) is modelled as an error result. -/

/-- `_rlfunc(rl, lz, pot)`: `rl*vcirc(pot, rl) - lz`. -/
def rlfunc (vc : ℚ → ℚ) (r lz : ℚ) : ℚ := r * vc r - lz

/-- The `while (2.*lower-1.)*_rlfunc(rtry, lz, pot) > 0.` loop of
`_rlFindStart`: halves `rtry` when `lower`, doubles it otherwise. -/
def rlFindLoop (vc : ℚ → ℚ) (lz : ℚ) (lower : Bool) : ℕ → ℚ → Option ℚ
  | 0, rtry =>
    if (2 * (if lower then (1 : ℚ) else 0) - 1) * rlfunc vc rtry lz > 0 then none
    else some rtry
  | fuel + 1, rtry =>
    if (2 * (if lower then (1 : ℚ) else 0) - 1) * rlfunc vc rtry lz > 0 then
      rlFindLoop vc lz lower fuel (if lower then rtry / 2 else rtry * 2)
    else some rtry

/-- `_rlFindStart(rl, lz, pot, lower)`: starts the loop at `rtry = 2.*rl`. -/
def rlFindStart (vc : ℚ → ℚ) (fuel : ℕ) (r0 lz : ℚ) (lower : Bool) : Option ℚ :=
  rlFindLoop vc lz lower fuel (2 * r0)

/-- The `except ValueError` retry path of `rl`: the lower bracket
`_rlFindStart(10.**-5., |lz|, Pot, lower=True)` followed by
`brentq(_rlfunc, rlower, rstart)`. -/
def rlRetry (brentq : (ℚ → ℚ) → ℚ → ℚ → Except String ℚ) (vc : ℚ → ℚ)
    (fuel : ℕ) (lz rstart : ℚ) : Except String ℚ :=
  match rlFindStart vc fuel (1 / 100000) |lz| true with
  | none => Except.error "bracket search does not terminate"
  | some rlower => brentq (fun r => rlfunc vc r |lz|) rlower rstart

/-- The `try` body of `rl` given the upper bracket end:
`brentq(_rlfunc, 10.**-5., rstart)`, falling back to the single retry when
the root-find raises. -/
def rlWithStart (brentq : (ℚ → ℚ) → ℚ → ℚ → Except String ℚ) (vc : ℚ → ℚ)
    (fuel : ℕ) (lz rstart : ℚ) : Except String ℚ :=
  match brentq (fun r => rlfunc vc r |lz|) (1 / 100000) rstart with
  | Except.ok r => Except.ok r
  | Except.error _ => rlRetry brentq vc fuel lz rstart

/-- `rl(Pot, lz)`: upper bracket from `_rlFindStart(|lz|, |lz|, Pot)`, then
the bracketed root-find with its single retry. -/
def rl (brentq : (ℚ → ℚ) → ℚ → ℚ → Except String ℚ) (vc : ℚ → ℚ)
    (fuel : ℕ) (lz : ℚ) : Except String ℚ :=
  match rlFindStart vc fuel |lz| |lz| false with
  | none => Except.error "bracket search does not terminate"
  | some rstart => rlWithStart brentq vc fuel lz rstart

theorem rlFindLoop_false_spec (vc : ℚ → ℚ) (lz : ℚ) :
    ∀ (fuel : ℕ) (rtry rt : ℚ),
      rlFindLoop vc lz false fuel rtry = some rt →
      0 ≤ rlfunc vc rt lz ∧ ∃ k : ℕ, rt = 2 ^ k * rtry
  | 0, rtry, rt => by
    intro h
    rw [rlFindLoop] at h
    simp only [Bool.false_eq_true, if_false] at h
    split at h
    · exact Option.noConfusion h
    · rename_i hc
      injection h with h2
      subst h2
      refine ⟨?_, 0, by ring⟩
      rw [not_lt] at hc
      nlinarith [hc]
  | fuel + 1, rtry, rt => by
    intro h
    rw [rlFindLoop] at h
    simp only [Bool.false_eq_true, if_false] at h
    split at h
    · obtain ⟨h1, k, hk⟩ := rlFindLoop_false_spec vc lz fuel _ rt h
      refine ⟨h1, k + 1, ?_⟩
      rw [hk]; ring
    · rename_i hc
      injection h with h2
      subst h2
      refine ⟨?_, 0, by ring⟩
      rw [not_lt] at hc
      nlinarith [hc]

theorem rlFindLoop_true_spec (vc : ℚ → ℚ) (lz : ℚ) :
    ∀ (fuel : ℕ) (rtry rt : ℚ),
      rlFindLoop vc lz true fuel rtry = some rt →
      rlfunc vc rt lz ≤ 0 ∧ ∃ k : ℕ, rt = rtry / 2 ^ k
  | 0, rtry, rt => by
    intro h
    rw [rlFindLoop] at h
    simp only [eq_self_iff_true, if_true] at h
    split at h
    · exact Option.noConfusion h
    · rename_i hc
      injection h with h2
      subst h2
      refine ⟨?_, 0, by simp⟩
      rw [not_lt] at hc
      nlinarith [hc]
  | fuel + 1, rtry, rt => by
    intro h
    rw [rlFindLoop] at h
    simp only [eq_self_iff_true, if_true] at h
    split at h
    · obtain ⟨h1, k, hk⟩ := rlFindLoop_true_spec vc lz fuel _ rt h
      refine ⟨h1, k + 1, ?_⟩
      rw [hk, div_div, pow_succ]
      ring_nf
    · rename_i hc
      injection h with h2
      subst h2
      refine ⟨?_, 0, by simp⟩
      rw [not_lt] at hc
      nlinarith [hc]

/-- C8: under the bracketed-root-finder contract (an `ok` result is a root
of the supplied function), every radius returned by `rl` satisfies
`R*vc(R) = |L|`; the upper bracket search returns a repeatedly doubled
`2*r0` at which the sign of `R*vc(R)-|L|` has flipped (from the negative
side); the lower bracket retry returns a repeatedly halved `2*r0` at which
the sign has flipped from the positive side; and when the first bracketed
root-find fails, `rl` is exactly the single retry on the lower bracket. -/
theorem C8_rl_circular_radius
    (brentq : (ℚ → ℚ) → ℚ → ℚ → Except String ℚ) (vc : ℚ → ℚ)
    (fuel : ℕ) (lz : ℚ)
    (hok : ∀ f a b r, brentq f a b = Except.ok r → f r = 0) :
    (∀ r, rl brentq vc fuel lz = Except.ok r → r * vc r = |lz|) ∧
    (∀ r0 rt, rlFindStart vc fuel r0 lz false = some rt →
      0 ≤ rlfunc vc rt lz ∧ ∃ k : ℕ, rt = 2 ^ k * (2 * r0)) ∧
    (∀ r0 rt, rlFindStart vc fuel r0 lz true = some rt →
      rlfunc vc rt lz ≤ 0 ∧ ∃ k : ℕ, rt = (2 * r0) / 2 ^ k) ∧
    (∀ rstart rlower e,
      rlFindStart vc fuel |lz| |lz| false = some rstart →
      brentq (fun r => rlfunc vc r |lz|) (1 / 100000) rstart = Except.error e →
      rlFindStart vc fuel (1 / 100000) |lz| true = some rlower →
      rl brentq vc fuel lz = brentq (fun r => rlfunc vc r |lz|) rlower rstart) := by
  refine ⟨?_, ?_, ?_, ?_⟩
  · intro r hr
    unfold rl at hr
    split at hr
    · exact Except.noConfusion hr
    · rename_i rstart h1
      unfold rlWithStart at hr
      split at hr
      · rename_i r2 h2
        injection hr with h3
        subst h3
        have := hok _ _ _ _ h2
        simp only [rlfunc] at this
        linarith [this]
      · rename_i e h2
        unfold rlRetry at hr
        split at hr
        · exact Except.noConfusion hr
        · rename_i rlower h3
          have := hok _ _ _ _ hr
          simp only [rlfunc] at this
          linarith [this]
  · exact fun r0 rt h => rlFindLoop_false_spec vc lz fuel (2 * r0) rt h
  · exact fun r0 rt h => rlFindLoop_true_spec vc lz fuel (2 * r0) rt h
  · intro rstart rlower e h1 h2 h3
    unfold rl
    rw [h1]
    show rlWithStart brentq vc fuel lz rstart = _
    unfold rlWithStart
    rw [h2]
    show rlRetry brentq vc fuel lz rstart = _
    unfold rlRetry
    rw [h3]

/-- Toy bracketed root-finder for witnesses: succeeds exactly when the left
end of the bracket is already a root, raises a `ValueError` otherwise.  It
satisfies both halves of the `brentq` contract used in the theorems. -/
def brentqW : (ℚ → ℚ) → ℚ → ℚ → Except String ℚ := fun f a _ =>
  if f a = 0 then Except.ok a
  else Except.error "ValueError: no sign change in the bracket"

theorem brentqW_ok : ∀ f a b r, brentqW f a b = Except.ok r → f r = 0 := by
  intro f a b r h
  unfold brentqW at h
  split at h
  · injection h with h2
    rw [← h2]
    assumption
  · exact Except.noConfusion h

theorem brentqW_fail : ∀ f a b, 0 < f a * f b →
    ∃ e, brentqW f a b = Except.error e := by
  intro f a b h
  have hfa : ¬f a = 0 := by
    intro hfa
    rw [hfa, zero_mul] at h
    exact lt_irrefl 0 h
  exact ⟨"ValueError: no sign change in the bracket",
    by unfold brentqW; rw [if_neg hfa]⟩

/-- The circular-velocity curve `vc(r) = 1/r` used in the C8 witness. -/
def vcW : ℚ → ℚ := fun r => 1 / r

/-- C8 witness: with the toy root-finder and `vc(r) = 1/r`, `rl` at
`L = 1` returns `10^-5`, and the returned radius satisfies
`R*vc(R) = |L|`. -/
theorem C8_rl_circular_radius_witness :
    (1 / 100000 : ℚ) * vcW (1 / 100000) = |(1 : ℚ)| := by
  refine (C8_rl_circular_radius brentqW vcW 1 1 brentqW_ok).1 (1 / 100000) ?_
  norm_num [rl, rlFindStart, rlFindLoop, rlWithStart, rlRetry, brentqW, vcW,
    rlfunc]

/-! ## Lindblad / corotation resonance radius (`lindbladR`)

`omegac` and `epifreq` delegate to the planar evaluators (outside this
source tree), and the claim is stated directly in terms of the circular
angular speed and the epicyclic frequency, so both are parameters. -/

/-- The order argument: an integer/rational order `m`, or the string
`"corotation"`.  (Any other string raises an `IOError` in the source; the
claims do not touch that branch.) -/
inductive LindbladM where
  | order : ℚ → LindbladM
  | corotation : LindbladM

/-- `_corotationR_eq(R, Pot, OmegaP)`: `omegac(Pot, R) - OmegaP`. -/
def corotationR_eq (omegac : ℚ → ℚ) (OmegaP R : ℚ) : ℚ := omegac R - OmegaP

/-- `_lindbladR_eq(R, Pot, OmegaP, m)`:
`m*(omegac(Pot, R) - OmegaP) - epifreq(Pot, R)`. -/
def lindbladR_eq (omegac epifreq : ℚ → ℚ) (OmegaP m R : ℚ) : ℚ :=
  m * (omegac R - OmegaP) - epifreq R

/-- `lindbladR(Pot, OmegaP, m)`: `brentq` on the fixed interval
`[0.0000001, 1000.]` applied to `_corotationR_eq` when `m` is the
corotation string and to `_lindbladR_eq` otherwise; a `ValueError` from
`brentq` (no sign change in the bracket) is caught and turned into the
explicit no-resonance result `None`. -/
def lindbladR (brentq : (ℚ → ℚ) → ℚ → ℚ → Except String ℚ)
    (omegac epifreq : ℚ → ℚ) (OmegaP : ℚ) : LindbladM → Option ℚ
  | LindbladM.corotation =>
    match brentq (corotationR_eq omegac OmegaP) (1 / 10000000) 1000 with
    | Except.ok r => some r
    | Except.error _ => none
  | LindbladM.order m =>
    match brentq (lindbladR_eq omegac epifreq OmegaP m) (1 / 10000000) 1000 with
    | Except.ok r => some r
    | Except.error _ => none

/-- C9: under the `brentq` contract (failure when there is no sign change
over the bracket, an `ok` result is a root), the resonance search solves
`m*(omegac(R)-OmegaP) - epifreq(R) = 0` (or `omegac(R) = OmegaP` for
corotation) over the fixed interval `[10^-7, 1000]`, and when the equation
has no sign change over that interval the operation returns the explicit
no-resonance result `none` instead of an error. -/
theorem C9_lindbladR_no_resonance
    (brentq : (ℚ → ℚ) → ℚ → ℚ → Except String ℚ)
    (omegac epifreq : ℚ → ℚ) (OmegaP : ℚ)
    (hfail : ∀ f a b, 0 < f a * f b → ∃ e, brentq f a b = Except.error e)
    (hok : ∀ f a b r, brentq f a b = Except.ok r → f r = 0) :
    (∀ m : ℚ,
      0 < lindbladR_eq omegac epifreq OmegaP m (1 / 10000000) *
            lindbladR_eq omegac epifreq OmegaP m 1000 →
      lindbladR brentq omegac epifreq OmegaP (LindbladM.order m) = none) ∧
    (0 < corotationR_eq omegac OmegaP (1 / 10000000) *
          corotationR_eq omegac OmegaP 1000 →
      lindbladR brentq omegac epifreq OmegaP LindbladM.corotation = none) ∧
    (∀ m r,
      lindbladR brentq omegac epifreq OmegaP (LindbladM.order m) = some r →
      m * (omegac r - OmegaP) - epifreq r = 0) ∧
    (∀ r,
      lindbladR brentq omegac epifreq OmegaP LindbladM.corotation = some r →
      omegac r = OmegaP) := by
  refine ⟨?_, ?_, ?_, ?_⟩
  · intro m hsign
    obtain ⟨e, he⟩ := hfail (lindbladR_eq omegac epifreq OmegaP m)
      (1 / 10000000) 1000 hsign
    simp only [lindbladR]
    rw [he]
  · intro hsign
    obtain ⟨e, he⟩ := hfail (corotationR_eq omegac OmegaP)
      (1 / 10000000) 1000 hsign
    simp only [lindbladR]
    rw [he]
  · intro m r hr
    simp only [lindbladR] at hr
    cases hb : brentq (lindbladR_eq omegac epifreq OmegaP m)
        (1 / 10000000) 1000 with
    | ok r2 =>
      rw [hb] at hr
      injection hr with h2
      subst h2
      have := hok _ _ _ _ hb
      simpa [lindbladR_eq] using this
    | error e => rw [hb] at hr; exact Option.noConfusion hr
  · intro r hr
    simp only [lindbladR] at hr
    cases hb : brentq (corotationR_eq omegac OmegaP) (1 / 10000000) 1000 with
    | ok r2 =>
      rw [hb] at hr
      injection hr with h2
      subst h2
      have := hok _ _ _ _ hb
      simp only [corotationR_eq] at this
      linarith [this]
    | error e => rw [hb] at hr; exact Option.noConfusion hr

/-- C9 witness: with `omegac` constantly 1 and pattern speed 0 the
corotation equation has no sign change over the search interval, and the
search reports the explicit no-resonance result. -/
theorem C9_lindbladR_no_resonance_witness :
    lindbladR brentqW (fun _ => 1) (fun _ => 0) 0 LindbladM.corotation = none := by
  refine (C9_lindbladR_no_resonance brentqW (fun _ => 1) (fun _ => 0) 0
    brentqW_fail brentqW_ok).2.1 ?_
  norm_num [corotationR_eq]

end Galpy
